import Mathlib

/-!
# Verification of the d2l-pytorch notebooks

A shallow embedding, in Lean 4, of the executable content of the three
notebooks of this repository:

* `Automatic_Differentiation.ipynb` — the piecewise-linear control-flow
  function `f`, the toy gradient example `y = 2 xᵀx`;
* the concise linear-regression notebook (`synthetic_data`, `load_array`,
  `LinearRegressionModel`, the `MSELoss`/`SGD` training loop);
* `Concise_Implementation_of_Softmax_Regression.ipynb` — the
  `Reshape`/`Linear(784, 10)` network.

Scalar tensor entries are modelled as rationals (the float32 arithmetic of
the notebooks idealised as exact arithmetic); the library calls the notebooks
delegate to torch (`backward`, `SGD.step`, `MSELoss`) are modelled by their
documented mathematical semantics, and the gradient values the model
assigns are certified against real derivatives (`HasDerivAt`) where a claim
is about differentiation.
-/

namespace D2L

/-! ## The control-flow function `f` of the autodiff notebook

Python source:
```
def f(a):
    b = a * 2
    while b.norm().item() < 1000:
        b = b * 2
    if b.sum().item() > 0:
        c = b
    else:
        c = 100 * b
    return c
```
For a 1-element tensor, `b.norm()` is `|b|` and `b.sum()` is `b`.  The
while loop is embedded with explicit fuel; `none` means the fuel ran out
with the loop still running. -/

/-- One-scalar embedding of the while loop `while |b| < 1000: b = b * 2`,
with fuel.  With fuel 0 remaining and the guard still true the run is
divergent (`none`); otherwise the loop exits with the final `b`. -/
def fWhile : Nat → ℚ → Option ℚ
  | 0, b => if |b| < 1000 then none else some b
  | fuel + 1, b => if |b| < 1000 then fWhile fuel (b * 2) else some b

/-- The function `f` of the notebook on a scalar input: `b = a * 2`, the
while loop, then `c = b` if `b > 0` else `c = 100 * b`. -/
def f (fuel : Nat) (a : ℚ) : Option ℚ :=
  (fWhile fuel (a * 2)).map (fun b => if b > 0 then b else 100 * b)

/-- The loop exit: if `k` is the least iteration count at which
`|b| * 2^k` reaches 1000, any fuel of at least `k` exits with `b * 2^k`. -/
theorem fWhile_exits (k : Nat) : ∀ (b : ℚ), 1000 ≤ |b| * 2 ^ k →
    (∀ j < k, |b| * 2 ^ j < 1000) →
    ∀ fuel, k ≤ fuel → fWhile fuel b = some (b * 2 ^ k) := by
  induction k with
  | zero =>
    intro b hreach _ fuel _
    have hb : ¬ |b| < 1000 := by
      simpa using hreach
    cases fuel with
    | zero => simp [fWhile, hb]
    | succ n => simp [fWhile, hb]
  | succ k ih =>
    intro b hreach hmin fuel hfuel
    have hguard : |b| < 1000 := by
      simpa using hmin 0 (Nat.succ_pos k)
    obtain ⟨n, rfl⟩ : ∃ n, fuel = n + 1 :=
      ⟨fuel - 1, (Nat.succ_pred_eq_of_pos (Nat.lt_of_lt_of_le (Nat.succ_pos k) hfuel)).symm⟩
    have hreach' : 1000 ≤ |b * 2| * 2 ^ k := by
      have : |b * 2| = |b| * 2 := by
        rw [abs_mul]; norm_num
      rw [this, mul_assoc, ← pow_succ']
      exact hreach
    have hmin' : ∀ j < k, |b * 2| * 2 ^ j < 1000 := by
      intro j hj
      have : |b * 2| = |b| * 2 := by
        rw [abs_mul]; norm_num
      rw [this, mul_assoc, ← pow_succ']
      exact hmin (j + 1) (Nat.succ_lt_succ hj)
    have hrec := ih (b * 2) hreach' hmin' n (Nat.succ_le_succ_iff.mp hfuel)
    have : b * 2 * 2 ^ k = b * 2 ^ (k + 1) := by ring
    rw [fWhile, if_pos hguard, hrec, this]

/-- With `b = 0` the guard `|b| < 1000` holds forever and the loop body
keeps `b = 0`, so no fuel suffices. -/
theorem fWhile_zero_diverges : ∀ fuel, fWhile fuel 0 = none := by
  intro fuel
  induction fuel with
  | zero => simp [fWhile]
  | succ n ih => simpa [fWhile] using ih

/-- For a nonzero input there is a doubling count that pushes `|a * 2|`
past 1000. -/
theorem exists_reach (a : ℚ) (ha : a ≠ 0) : ∃ k, 1000 ≤ |a * 2| * 2 ^ k := by
  have hpos : 0 < |a * 2| :=
    abs_pos.mpr (mul_ne_zero ha (by norm_num))
  obtain ⟨k, hk⟩ := pow_unbounded_of_one_lt (1000 / |a * 2|) (by norm_num : (1 : ℚ) < 2)
  refine ⟨k, ?_⟩
  have := (div_lt_iff₀ hpos).mp hk
  nlinarith [this]

/-! ## A 2-D tensor with runtime shape

The linear-regression notebook manipulates 2-D float tensors whose shapes
are only checked at runtime (`matmul` dimension check, the `assert` in
`synthetic_data`).  A tensor is a pair of dimensions together with its
entries; shape-checked operations return `Option`. -/

/-- A 2-D tensor of rationals with runtime shape. -/
structure Tensor where
  rows : Nat
  cols : Nat
  data : Fin rows → Fin cols → ℚ

/-- Extensionality across propositionally equal shapes. -/
theorem Tensor.ext_of_shape (A B : Tensor) (hr : A.rows = B.rows)
    (hc : A.cols = B.cols)
    (hd : ∀ i j, A.data i j = B.data (Fin.cast hr i) (Fin.cast hc j)) : A = B := by
  cases A with
  | mk ra ca da =>
    cases B with
    | mk rb cb db =>
      dsimp at hr hc
      subst hr
      subst hc
      simp only [mk.injEq, heq_eq_eq, true_and]
      funext i j
      exact hd i j

/-- Embedding of `torch.normal(mean, std, (r, c))`: a fresh `(r, c)` tensor
whose entries come from a random source `src` (the draw itself is modelled
as an input, since its distribution plays no role in any claim). -/
def torchNormal (src : Nat → Nat → ℚ) (r c : Nat) : Tensor :=
  ⟨r, c, fun i j => src i.1 j.1⟩

/-- Embedding of `A @ B`: defined when the inner dimensions agree. -/
def Tensor.matmul (A B : Tensor) : Option Tensor :=
  if h : A.cols = B.rows then
    some ⟨A.rows, B.cols, fun i j => ∑ k : Fin A.cols, A.data i k * B.data (Fin.cast h k) j⟩
  else none

/-- Embedding of `A + b` for a scalar `b` (broadcast over all entries). -/
def Tensor.addScalar (A : Tensor) (b : ℚ) : Tensor :=
  ⟨A.rows, A.cols, fun i j => A.data i j + b⟩

/-- Embedding of the in-place `A += B` (elementwise; shapes must agree). -/
def Tensor.addTensor (A B : Tensor) : Option Tensor :=
  if h : A.rows = B.rows ∧ A.cols = B.cols then
    some ⟨A.rows, A.cols, fun i j => A.data i j + B.data (Fin.cast h.1 i) (Fin.cast h.2 j)⟩
  else none

/-- Embedding of `A.type(torch.FloatTensor)`: returns a new tensor with the
same (already-float, here: rational) values; the receiver is not mutated. -/
def Tensor.type (A : Tensor) : Tensor :=
  ⟨A.rows, A.cols, A.data⟩

/-! ## `synthetic_data`

Python source (the only `assert` in the repository):
```
def synthetic_data(w, b, num_examples):
    X = torch.normal(0, 1, (num_examples, w.shape[0]))
    y = X @ w + b
    y += torch.normal(0, 0.01, size=y.shape)
    assert X.shape[0] == y.shape[0], ...
    X.type(torch.FloatTensor)
    y.type(torch.FloatTensor)
    return X, y
```
The two random draws are given by the sources `xSrc` and `noiseSrc`; a
failed shape check or a failed assertion is `none`. -/

/-- Embedding of `synthetic_data`.  The `assert` is the `if` guard; the two
discarded `type` calls are kept as discarded bindings. -/
def synthetic_data (w : Tensor) (b : ℚ) (num_examples : Nat)
    (xSrc noiseSrc : Nat → Nat → ℚ) : Option (Tensor × Tensor) := do
  let X := torchNormal xSrc num_examples w.rows
  let y0 ← X.matmul w
  let y1 := y0.addScalar b
  let y ← y1.addTensor (torchNormal noiseSrc y1.rows y1.cols)
  if X.rows = y.rows then
    let _ := X.type
    let _ := y.type
    some (X, y)
  else none

/-! ## `load_array` and the `DataLoader` shell

Python source:
```
def load_array(data_arrays, batch_size, is_train=True):
    dataset = TensorDataset(*(features, labels))
    dataloader = DataLoader(dataset=dataset, batch_size=batch_size, shuffle=True)
    return dataloader
```
`features` and `labels` are the module-level tensors the function closes
over; they are passed here as explicit context.  `TensorDataset` and
`DataLoader` are opaque framework shells: only their construction
arguments are modelled. -/

/-- Embedding of `TensorDataset(features, labels)`. -/
structure TensorDataset where
  features : Tensor
  labels : Tensor

/-- Embedding of a constructed `DataLoader`: its dataset, batch size and
shuffle flag. -/
structure DataLoader where
  dataset : TensorDataset
  batch_size : Nat
  shuffle : Bool

/-- Embedding of `load_array`.  `features` and `labels` are the captured
module-level globals; `data_arrays` and `is_train` are the (unused)
parameters of the Python function. -/
def load_array (features labels : Tensor) (data_arrays : Tensor × Tensor)
    (batch_size : Nat) ( is_train : Bool) : DataLoader :=
  let _ := data_arrays
  let _ := is_train
  { dataset := ⟨features, labels⟩, batch_size := batch_size, shuffle := true }

/-- Variant of `synthetic_data` used to state the frame claim C9: the same
computation with the two discarded `type` statements removed. -/
def synthetic_data_core (w : Tensor) (b : ℚ) (num_examples : Nat)
    (xSrc noiseSrc : Nat → Nat → ℚ) : Option (Tensor × Tensor) := do
  let X := torchNormal xSrc num_examples w.rows
  let y0 ← X.matmul w
  let y1 := y0.addScalar b
  let y ← y1.addTensor (torchNormal noiseSrc y1.rows y1.cols)
  if X.rows = y.rows then
    some (X, y)
  else none

/-- Closed form of `synthetic_data`: every shape check passes and the
result is the raw draw `X` together with `y = X @ w + b + noise`. -/
theorem synthetic_data_eq (w : Tensor) (b : ℚ) (n : Nat)
    (xSrc noiseSrc : Nat → Nat → ℚ) :
    synthetic_data w b n xSrc noiseSrc =
      some (torchNormal xSrc n w.rows,
        ⟨n, w.cols, fun i j =>
          ((∑ k : Fin w.rows, xSrc i.1 k.1 * w.data k j) + b) + noiseSrc i.1 j.1⟩) := by
  simp only [synthetic_data, torchNormal, Tensor.matmul, Tensor.addScalar,
    Tensor.addTensor, Tensor.type, Fin.cast_refl, id_eq, dite_eq_ite, if_pos,
    and_self, Option.bind_eq_bind, Option.some_bind, if_true]

/-! ## The models

`LinearRegressionModel` (linear-regression notebook):
```
class LinearRegressionModel(torch.nn.Module):
    def __init__(self):
        super().__init__()
        self.layer1 = torch.nn.Linear(2, 1, bias=True)
    def forward(self, x):
        y_pred = self.layer1(x)
        return y_pred
```
and the softmax-regression network:
```
class Reshape(torch.nn.Module):
    def forward(self, x):
        return x.view(-1, 784)
net = nn.Sequential(Reshape(), nn.Linear(784, 10))
```
A `Linear(dIn, dOut)` layer computes `x Wᵀ + b` rowwise on a batch. -/

/-- Embedding of applying `torch.nn.Linear(dIn, dOut, bias=True)` with
weight `W : (dOut, dIn)` and bias `b : (dOut)` to a batch `x : (m, dIn)`:
`(x Wᵀ + b) i o = (∑ j, x i j * W o j) + b o`. -/
def linearForward {m dIn dOut : Nat} (W : Fin dOut → Fin dIn → ℚ)
    (b : Fin dOut → ℚ) (x : Fin m → Fin dIn → ℚ) : Fin m → Fin dOut → ℚ :=
  fun i o => (∑ j, x i j * W o j) + b o

/-- The parameters of `LinearRegressionModel`: its sole layer
`layer1 = Linear(2, 1, bias=True)`, weight shape `(1, 2)`, bias shape
`(1)`. -/
structure LinearRegressionModel where
  weight : Fin 1 → Fin 2 → ℚ
  bias : Fin 1 → ℚ

/-- `LinearRegressionModel.forward`: `y_pred = self.layer1(x)`. -/
def LinearRegressionModel.forward {m : Nat} (net : LinearRegressionModel)
    (x : Fin m → Fin 2 → ℚ) : Fin m → Fin 1 → ℚ :=
  linearForward net.weight net.bias x

/-! ## Loss, optimizer and the training step

```
loss = torch.nn.MSELoss(reduction="sum")
trainer = torch.optim.SGD(net.parameters(), lr=0.03)
...
        l = loss(net(X), y)
        trainer.zero_grad()
        l.backward()
        trainer.step()
```
`backward` accumulates the gradient of `l` into the `.grad` slot of each parameter
(after `zero_grad`, the accumulated value is the gradient itself), and
`SGD.step` performs `θ ← θ - lr * θ.grad` on every parameter. -/

/-- Embedding of `torch.nn.MSELoss(reduction="sum")`: the sum of squared
entrywise differences. -/
def mseLossSum {m dOut : Nat} (pred tgt : Fin m → Fin dOut → ℚ) : ℚ :=
  ∑ i, ∑ o, (pred i o - tgt i o) ^ 2

/-- The learning rate `lr=0.03` passed to `torch.optim.SGD`. -/
def trainerLR : ℚ := 0.03

/-- The state `SGD(net.parameters(), ...)` acts on: the parameters of
`net` together with their `.grad` slots. -/
structure OptimState where
  params : LinearRegressionModel
  gradWeight : Fin 1 → Fin 2 → ℚ
  gradBias : Fin 1 → ℚ

/-- `trainer.zero_grad()`: clear every parameter gradient. -/
def zeroGrad (s : OptimState) : OptimState :=
  { s with gradWeight := fun _ _ => 0, gradBias := fun _ => 0 }

/-- `l.backward()` for `l = mseLossSum (net(X)) y`: reverse-mode
accumulation of `∂l/∂θ` into each `.grad`. -/
def backwardMSE {m : Nat} (X : Fin m → Fin 2 → ℚ) (y : Fin m → Fin 1 → ℚ)
    (s : OptimState) : OptimState :=
  { s with
    gradWeight := fun o j => s.gradWeight o j +
      ∑ i, 2 * (s.params.forward X i o - y i o) * X i j,
    gradBias := fun o => s.gradBias o +
      ∑ i, 2 * (s.params.forward X i o - y i o) }

/-- `trainer.step()` for SGD: `θ ← θ - lr * θ.grad` on every parameter. -/
def sgdStep (lr : ℚ) (s : OptimState) : OptimState :=
  { s with params :=
      { weight := fun o j => s.params.weight o j - lr * s.gradWeight o j,
        bias := fun o => s.params.bias o - lr * s.gradBias o } }

/-- One iteration of the inner training loop on the mini-batch `(X, y)`. -/
def trainStep (lr : ℚ) {m : Nat} (X : Fin m → Fin 2 → ℚ)
    (y : Fin m → Fin 1 → ℚ) (s : OptimState) : OptimState :=
  sgdStep lr (backwardMSE X y (zeroGrad s))

/-! ## The batch loss as a mathematical function of the parameters

To certify that `backwardMSE` stores the true gradient, the loss is read
as a function over ℝ of one parameter entry at a time and its derivative
is computed with `HasDerivAt`. -/

/-- The mini-batch loss as a polynomial function of the layer parameters,
over any commutative ring (read at ℚ it coincides with
`mseLossSum (net(X)) y`; read at ℝ it is the function differentiated). -/
def lossPoly {R : Type} [CommRing R] {m dIn dOut : Nat}
    (X : Fin m → Fin dIn → R) (y : Fin m → Fin dOut → R)
    (W : Fin dOut → Fin dIn → R) (b : Fin dOut → R) : R :=
  ∑ i, ∑ o, ((∑ j, X i j * W o j) + b o - y i o) ^ 2

/-- Derivative of one row-sum in the weight entry `j`. -/
theorem hasDerivAt_rowSum {dIn : Nat} (xrow v : Fin dIn → ℝ) (j : Fin dIn) :
    HasDerivAt (fun t => ∑ k, xrow k * Function.update v j t k) (xrow j) (v j) := by
  have h1 : ∀ k : Fin dIn, k ∈ Finset.univ → HasDerivAt
      (fun t => xrow k * Function.update v j t k)
      (if k = j then xrow k else 0) (v j) := by
    intro k _
    by_cases hkj : k = j
    · subst hkj
      simp only [if_pos rfl]
      have he : (fun t => xrow k * Function.update v k t k) = fun t => xrow k * t := by
        funext t
        rw [Function.update_same]
      rw [he]
      simpa using (hasDerivAt_id (v k)).const_mul (xrow k)
    · simp only [if_neg hkj]
      have he : (fun t => xrow k * Function.update v j t k) = fun _ => xrow k * v k := by
        funext t
        rw [Function.update_noteq hkj]
      rw [he]
      exact hasDerivAt_const _ _
  have hs := HasDerivAt.sum h1
  simpa [Finset.sum_ite_eq'] using hs

/-- The partial derivative of `lossPoly` in the weight entry `(o, j)` is
`∑ i, 2 * (pred i o - y i o) * X i j`. -/
theorem hasDerivAt_lossPoly_weight {m dIn dOut : Nat}
    (X : Fin m → Fin dIn → ℝ) (y : Fin m → Fin dOut → ℝ)
    (W : Fin dOut → Fin dIn → ℝ) (b : Fin dOut → ℝ) (o : Fin dOut) (j : Fin dIn) :
    HasDerivAt
      (fun t => lossPoly X y (Function.update W o (Function.update (W o) j t)) b)
      (∑ i, 2 * ((∑ k, X i k * W o k) + b o - y i o) * X i j) (W o j) := by
  have hterm : ∀ i : Fin m, i ∈ Finset.univ → HasDerivAt
      (fun t => ∑ o', ((∑ k, X i k * Function.update W o (Function.update (W o) j t) o' k)
        + b o' - y i o') ^ 2)
      (∑ o', if o' = o then 2 * ((∑ k, X i k * W o k) + b o - y i o) * X i j else 0)
      (W o j) := by
    intro i _
    refine HasDerivAt.sum ?_
    intro o' _
    by_cases ho : o' = o
    · subst ho
      simp only [if_pos rfl]
      have he : (fun t => ((∑ k, X i k * Function.update W o' (Function.update (W o') j t) o' k)
            + b o' - y i o') ^ 2)
          = fun t => ((∑ k, X i k * Function.update (W o') j t k) + b o' - y i o') ^ 2 := by
        funext t
        rw [Function.update_same]
      rw [he]
      have hinner : HasDerivAt
          (fun t => (∑ k, X i k * Function.update (W o') j t k) + b o' - y i o')
          (X i j) (W o' j) :=
        ((hasDerivAt_rowSum (X i) (W o') j).add_const (b o')).sub_const (y i o')
      have hsq := hinner.pow 2
      simpa [Function.update_eq_self] using hsq
    · simp only [if_neg ho]
      have he : (fun t => ((∑ k, X i k * Function.update W o (Function.update (W o) j t) o' k)
            + b o' - y i o') ^ 2)
          = fun _ => ((∑ k, X i k * W o' k) + b o' - y i o') ^ 2 := by
        funext t
        rw [Function.update_noteq ho]
      rw [he]
      exact hasDerivAt_const _ _
  have hs := HasDerivAt.sum hterm
  simp only [Finset.sum_ite_eq', Finset.mem_univ, if_pos] at hs
  simpa [lossPoly] using hs

/-- The partial derivative of `lossPoly` in the bias entry `o` is
`∑ i, 2 * (pred i o - y i o)`. -/
theorem hasDerivAt_lossPoly_bias {m dIn dOut : Nat}
    (X : Fin m → Fin dIn → ℝ) (y : Fin m → Fin dOut → ℝ)
    (W : Fin dOut → Fin dIn → ℝ) (b : Fin dOut → ℝ) (o : Fin dOut) :
    HasDerivAt (fun t => lossPoly X y W (Function.update b o t))
      (∑ i, 2 * ((∑ k, X i k * W o k) + b o - y i o)) (b o) := by
  have hterm : ∀ i : Fin m, i ∈ Finset.univ → HasDerivAt
      (fun t => ∑ o', ((∑ k, X i k * W o' k) + Function.update b o t o' - y i o') ^ 2)
      (∑ o', if o' = o then 2 * ((∑ k, X i k * W o k) + b o - y i o) else 0)
      (b o) := by
    intro i _
    refine HasDerivAt.sum ?_
    intro o' _
    by_cases ho : o' = o
    · subst ho
      simp only [if_pos rfl]
      have he : (fun t => ((∑ k, X i k * W o' k) + Function.update b o' t o' - y i o') ^ 2)
          = fun t => (t + ((∑ k, X i k * W o' k) - y i o')) ^ 2 := by
        funext t
        rw [Function.update_same]
        ring_nf
      rw [he]
      have hinner : HasDerivAt (fun t : ℝ => t + ((∑ k, X i k * W o' k) - y i o'))
          (1 : ℝ) (b o') := (hasDerivAt_id (b o')).add_const _
      have hsq := hinner.pow 2
      have hval : b o' + ((∑ k, X i k * W o' k) - y i o')
          = (∑ k, X i k * W o' k) + b o' - y i o' := by ring
      simpa [hval] using hsq
    · simp only [if_neg ho]
      have he : (fun t => ((∑ k, X i k * W o' k) + Function.update b o t o' - y i o') ^ 2)
          = fun _ => ((∑ k, X i k * W o' k) + b o' - y i o') ^ 2 := by
        funext t
        rw [Function.update_noteq ho]
      rw [he]
      exact hasDerivAt_const _ _
  have hs := HasDerivAt.sum hterm
  simp only [Finset.sum_ite_eq', Finset.mem_univ, if_pos] at hs
  simpa [lossPoly] using hs

/-! ## The training cell

```
num_epochs = 3
for epoch in range(num_epochs):
    for X, y in data_iter:
        l = loss(net(X), y)
        trainer.zero_grad()
        l.backward()
        trainer.step()
    l_epoch = loss(net(features), labels)
    print(..., epoch + 1, l_epoch)   # one line: epoch N, loss L
```
-/

/-- One mini-batch yielded by `data_iter` (its row count is part of the
batch, since the last batch may be short). -/
structure Batch where
  size : Nat
  X : Fin size → Fin 2 → ℚ
  y : Fin size → Fin 1 → ℚ

/-- The inner loop `for X, y in data_iter`: one complete pass over the
data iterator. -/
def runEpoch (lr : ℚ) (batches : List Batch) (s : OptimState) : OptimState :=
  batches.foldl (fun st bt => trainStep lr bt.X bt.y st) s

/-- The `num_epochs = 3` of the training cell. -/
def num_epochs : Nat := 3

/-- The training cell: `numEpochs` passes over the iterator; after each
pass the loss of the current model on the full `features`/`labels` is
computed and one line `epoch N, loss L` is printed.  The printed lines
are returned with the final optimizer state. -/
def trainLoop (lr : ℚ) (batches : List Batch) {n : Nat}
    (features : Fin n → Fin 2 → ℚ) (labels : Fin n → Fin 1 → ℚ)
    (numEpochs : Nat) (s0 : OptimState) : OptimState × List String :=
  (List.range numEpochs).foldl
    (fun acc e =>
      let s := runEpoch lr batches acc.1
      let lEpoch := mseLossSum (s.params.forward features) labels
      (s, acc.2 ++ ["epoch " ++ toString (e + 1) ++ ", loss " ++ toString lEpoch]))
    (s0, [])

/-! ## The softmax-regression network -/

/-- Row-major flat read of the entries of a tensor (the order in which `view`
reinterprets them); reads at the indices `view` produces are always in
range. -/
def Tensor.flatten (t : Tensor) (idx : Nat) : ℚ :=
  if h : idx / t.cols < t.rows ∧ idx % t.cols < t.cols then
    t.data ⟨idx / t.cols, h.1⟩ ⟨idx % t.cols, h.2⟩
  else 0

/-- Embedding of `x.view(-1, c)`: reinterpret the entries, row-major, as
a `(numel / c, c)` tensor; torch requires `numel` divisible by `c`. -/
def Tensor.view2 (t : Tensor) (c : Nat) : Option Tensor :=
  if _h : 0 < c ∧ (t.rows * t.cols) % c = 0 then
    some ⟨t.rows * t.cols / c, c, fun i j => t.flatten (i.1 * c + j.1)⟩
  else none

/-- `Reshape.forward`: `return x.view(-1, 784)`. -/
def Reshape.forward (x : Tensor) : Option Tensor :=
  x.view2 784

/-- Applying `nn.Linear(dIn, dOut)` to a runtime-shaped tensor (defined
when the column count matches the input dimension of the layer). -/
def linearApply {dIn dOut : Nat} (W : Fin dOut → Fin dIn → ℚ)
    (b : Fin dOut → ℚ) (x : Tensor) : Option Tensor :=
  if h : x.cols = dIn then
    some ⟨x.rows, dOut, fun i o => (∑ j, x.data i (Fin.cast h.symm j) * W o j) + b o⟩
  else none

/-- The softmax network `nn.Sequential(Reshape(), nn.Linear(784, 10))`:
the composition of the two modules and nothing else. -/
def softmaxNet (W : Fin 10 → Fin 784 → ℚ) (b : Fin 10 → ℚ) (x : Tensor) :
    Option Tensor :=
  (Reshape.forward x).bind (linearApply W b)

/-! ## The simple autodiff example

```
x = Variable(torch.arange(4, dtype=torch.float32).reshape((4, 1)), requires_grad=True)
y = 2 * torch.mm(x.t(), x)
y.backward()
print((x.grad - 4 * x).norm().item() == 0)   # True
print(x.grad_fn)                             # None
```
The `(4, 1)` column vector is modelled as a function on `Fin 4`. -/

/-- A `torch.autograd.Variable` as far as the claims observe it: the held
value, the `requires_grad` flag, and the `grad_fn` slot (`none` for leaf
variables, the name of the backward function for operation results). -/
structure Variable (α : Type) where
  val : α
  requires_grad : Bool
  gradFn : Option String

/-- Wrapping a tensor as `Variable(..., requires_grad=True)` creates a
leaf: its `grad_fn` is `None`. -/
def Variable.leaf {α : Type} (v : α) : Variable α :=
  ⟨v, true, none⟩

/-- The initial value `torch.arange(4, dtype=torch.float32).reshape((4, 1))`:
the column vector `(0, 1, 2, 3)`. -/
def xInit : Fin 4 → ℚ :=
  fun i => (i.1 : ℚ)

/-- The variable `x` of the notebook: a leaf. -/
def xVar : Variable (Fin 4 → ℚ) :=
  Variable.leaf xInit

/-- The recorded computation `y = 2 * torch.mm(x.t(), x)`, a `1 × 1`
tensor read as the scalar `2 Σ x_k²` (polymorphic so the same definition
is differentiated over ℝ). -/
def yQuadForm {R : Type} [CommRing R] (x : Fin 4 → R) : R :=
  2 * ∑ k, x k * x k

/-- The variable `y`: an operation result, so its `grad_fn` is set
(`MulBackward0` in the notebook output). -/
def yVar : Variable ℚ :=
  ⟨yQuadForm xInit, true, some "MulBackward0"⟩

/-- The reverse-mode pass `y.backward()` on the recorded graph of
`yQuadForm` with seed gradient 1: the scalar-multiplication node passes
upstream gradient `2` to the `mm` node, and `mm(x.t(), x)` contributes
`x_i` through each of its two uses of `x`; the value stored in `x.grad`
is `2 * (x_i + x_i)`. -/
def backwardQuadForm (x : Fin 4 → ℚ) : Fin 4 → ℚ :=
  fun i => 2 * (x i + x i)

/-- C1: `f` is a purely forward, piecewise-linear computation: for a
nonzero scalar `a`, with `k` the least number of doublings taking
`|b| = |2a|` to at least 1000, the result is `2^(k+1) * a` when `a > 0`
and `100 * 2^(k+1) * a` when `a < 0` (the factor 100 applies exactly when
`b.sum() ≤ 0`). -/
theorem c1_f_piecewise_linear (a : ℚ) (_ha : a ≠ 0) (k : Nat)
    (hreach : 1000 ≤ |a * 2| * 2 ^ k)
    (hleast : ∀ j < k, |a * 2| * 2 ^ j < 1000)
    (fuel : Nat) (hfuel : k ≤ fuel) :
    (0 < a → f fuel a = some (2 ^ (k + 1) * a)) ∧
    (a < 0 → f fuel a = some (100 * (2 ^ (k + 1) * a))) := by
  have hrun := fWhile_exits k (a * 2) hreach hleast fuel hfuel
  have hval : a * 2 * 2 ^ k = 2 ^ (k + 1) * a := by ring
  constructor
  · intro hpos
    have hcpos : (0 : ℚ) < 2 ^ (k + 1) * a := by positivity
    simp [f, hrun, hval, hcpos]
  · intro hneg
    have hcneg : ¬ (0 : ℚ) < 2 ^ (k + 1) * a := by
      have h2 : (0 : ℚ) < 2 ^ (k + 1) := by positivity
      nlinarith
    simp [f, hrun, hval, hcneg]

/-- Witness for C1 at `a = 500`: the least doubling count is `k = 0`
(`|2 * 500| = 1000` already) and the result is `2^1 * 500 = 1000`. -/
theorem c1_f_piecewise_linear_witness : f 0 500 = some (2 ^ 1 * 500) :=
  (c1_f_piecewise_linear 500 (by norm_num) 0 (by norm_num) (by simp) 0 (le_refl 0)).1
    (by norm_num)

/-- C8: `f` terminates exactly on nonzero inputs.  For `a ≠ 0` the least
doubling count `k` with `|2a| * 2^k ≥ 1000` exists and any fuel of at
least `k` produces a result, while for `a = 0` the loop keeps `b = 0`
and no amount of fuel produces a result. -/
theorem c8_f_terminates_iff_nonzero :
    (∀ a : ℚ, a ≠ 0 →
      ∃ k, (1000 ≤ |a * 2| * 2 ^ k ∧ ∀ j < k, |a * 2| * 2 ^ j < 1000) ∧
        ∀ fuel, k ≤ fuel → ∃ c, f fuel a = some c) ∧
    (∀ fuel, f fuel 0 = none) := by
  constructor
  · intro a ha
    have hex : ∃ k, 1000 ≤ |a * 2| * 2 ^ k := exists_reach a ha
    refine ⟨Nat.find hex, ⟨Nat.find_spec hex, ?_⟩, ?_⟩
    · intro j hj
      exact lt_of_not_le (Nat.find_min hex hj)
    · intro fuel hfuel
      have hleast : ∀ j < Nat.find hex, |a * 2| * 2 ^ j < 1000 := by
        intro j hj
        exact lt_of_not_le (Nat.find_min hex hj)
      have hrun := fWhile_exits (Nat.find hex) (a * 2) (Nat.find_spec hex) hleast fuel hfuel
      refine ⟨if a * 2 * 2 ^ Nat.find hex > 0 then a * 2 * 2 ^ Nat.find hex
        else 100 * (a * 2 * 2 ^ Nat.find hex), ?_⟩
      simp only [f, hrun, Option.map_some']
  · intro fuel
    have : (0 : ℚ) * 2 = 0 := by norm_num
    simp [f, this, fWhile_zero_diverges]

/-- Witness for C8 at `a = 1`: some fuel makes `f` return a value. -/
theorem c8_f_terminates_iff_nonzero_witness : ∃ k, (1000 ≤ |(1 : ℚ) * 2| * 2 ^ k ∧
    ∀ j < k, |(1 : ℚ) * 2| * 2 ^ j < 1000) ∧ ∀ fuel, k ≤ fuel → ∃ c, f fuel 1 = some c :=
  c8_f_terminates_iff_nonzero.1 1 (by norm_num)

/-- C2: the single `assert` in `synthetic_data` never fails: for every
weight tensor `w`, scalar bias `b` and positive `num_examples`, `X` has
shape `(num_examples, w.rows)`, `y` has `num_examples` rows, the assertion
`X.shape[0] == y.shape[0]` holds, and the function returns normally. -/
theorem c2_synthetic_data_assert_never_fails (w : Tensor) (b : ℚ) (n : Nat)
    (_hn : 0 < n) (xSrc noiseSrc : Nat → Nat → ℚ) :
    ∃ X y, synthetic_data w b n xSrc noiseSrc = some (X, y)
      ∧ X.rows = y.rows ∧ X.rows = n ∧ X.cols = w.rows :=
  ⟨_, _, synthetic_data_eq w b n xSrc noiseSrc, rfl, rfl, rfl⟩

/-- Witness for C2: a concrete call with a `2 × 1` weight and 3 examples
returns normally. -/
theorem c2_synthetic_data_assert_never_fails_witness :
    ∃ X y, synthetic_data ⟨2, 1, fun _ _ => 3⟩ 4 3 (fun _ _ => 1) (fun _ _ => 0) = some (X, y)
      ∧ X.rows = y.rows ∧ X.rows = 3 ∧ X.cols = (⟨2, 1, fun _ _ => 3⟩ : Tensor).rows :=
  c2_synthetic_data_assert_never_fails ⟨2, 1, fun _ _ => 3⟩ 4 3 (by decide)
    (fun _ _ => 1) (fun _ _ => 0)

/-- C7: for a `(d, 1)` weight, scalar `b` and positive `n`,
`synthetic_data` returns exactly the pair of the raw `(n, d)` draw `X`
(unmodified) and the `(n, 1)` tensor `y = X @ w + b + noise`. -/
theorem c7_synthetic_data_shape_spec (w : Tensor) (d : Nat) (hd : w.rows = d)
    (hw1 : w.cols = 1) (b : ℚ) (n : Nat) (_hn : 0 < n)
    (xSrc noiseSrc : Nat → Nat → ℚ) :
    synthetic_data w b n xSrc noiseSrc =
      some (torchNormal xSrc n d,
        ⟨n, 1, fun i j =>
          ((∑ k : Fin d, xSrc i.1 k.1 * w.data (Fin.cast hd.symm k) (Fin.cast hw1.symm j)) + b)
            + noiseSrc i.1 j.1⟩)
    ∧ (torchNormal xSrc n d).rows = n ∧ (torchNormal xSrc n d).cols = d := by
  subst hd
  refine ⟨?_, rfl, rfl⟩
  rw [synthetic_data_eq]
  refine congrArg some (congrArg (Prod.mk _) ?_)
  refine Tensor.ext_of_shape _ _ rfl hw1 ?_
  intro i j
  have hjlt : (j : Nat) < w.cols := j.isLt
  have hj0 : (j : Nat) = 0 := by omega
  have hje : j = ⟨0, by omega⟩ := Fin.ext hj0
  rw [hje]
  simp [Fin.cast]

/-- Witness for C7: the concrete call of the notebook shape, `w : 2 × 1`,
`n = 3`. -/
theorem c7_synthetic_data_shape_spec_witness :
    synthetic_data ⟨2, 1, fun _ _ => 3⟩ 4 3 (fun _ _ => 1) (fun _ _ => 0) =
      some (torchNormal (fun _ _ => 1) 3 2,
        ⟨3, 1, fun i j =>
          ((∑ k : Fin 2, (fun _ _ => (1 : ℚ)) i.1 k.1 *
            (⟨2, 1, fun _ _ => 3⟩ : Tensor).data (Fin.cast rfl k) (Fin.cast rfl j)) + 4)
            + (fun _ _ => (0 : ℚ)) i.1 j.1⟩)
    ∧ (torchNormal (fun _ _ => (1 : ℚ)) 3 2).rows = 3
    ∧ (torchNormal (fun _ _ => (1 : ℚ)) 3 2).cols = 2 :=
  c7_synthetic_data_shape_spec ⟨2, 1, fun _ _ => 3⟩ 2 rfl rfl 4 3 (by decide)
    (fun _ _ => 1) (fun _ _ => 0)

/-- C9: the two discarded `X.type(...)`/`y.type(...)` statements are no-ops
for the result: `type` returns a new, value-identical tensor, and
`synthetic_data` agrees with the variant that omits both statements. -/
theorem c9_type_statements_are_noops :
    (∀ A : Tensor, A.type = A) ∧
    (∀ (w : Tensor) (b : ℚ) (n : Nat) (xSrc noiseSrc : Nat → Nat → ℚ),
      synthetic_data w b n xSrc noiseSrc = synthetic_data_core w b n xSrc noiseSrc) :=
  ⟨fun _ => rfl, fun _ _ _ _ _ => rfl⟩

/-- C3: `load_array` ignores its `data_arrays` and `is_train` parameters:
it always wraps the module-level `features`/`labels` in a `TensorDataset`
and returns a `DataLoader` with the given batch size and `shuffle = True`,
so two calls differing only in those two parameters coincide. -/
theorem c3_load_array_ignores_parameters (features labels : Tensor)
    (da da' : Tensor × Tensor) (bs : Nat) (it it' : Bool) :
    load_array features labels da bs it = load_array features labels da' bs it'
    ∧ (load_array features labels da bs it).dataset = ⟨features, labels⟩
    ∧ (load_array features labels da bs it).batch_size = bs
    ∧ (load_array features labels da bs it).shuffle = true :=
  ⟨rfl, rfl, rfl, rfl⟩

/-- C4: one step of the training loop computes the loss as the sum of
squared errors (`MSELoss` with `reduction="sum"`), zeroes all parameter
gradients, backpropagates (each stored gradient is the true derivative of
the batch loss in that parameter, certified over ℝ), and applies exactly
one SGD update `θ ← θ - 0.03 * ∂l/∂θ` to every parameter of `net`; the
final equations determine the new parameters completely, so no other
mutation occurs. -/
theorem c4_train_step_single_sgd_update {m : Nat} (X : Fin m → Fin 2 → ℚ)
    (y : Fin m → Fin 1 → ℚ) (s : OptimState) :
    mseLossSum (s.params.forward X) y = ∑ i, ∑ o, (s.params.forward X i o - y i o) ^ 2
    ∧ (zeroGrad s).gradWeight = (fun _ _ => 0) ∧ (zeroGrad s).gradBias = (fun _ => 0)
    ∧ (∀ (o : Fin 1) (j : Fin 2), HasDerivAt
        (fun t : ℝ => lossPoly (fun i k => (X i k : ℝ)) (fun i o' => (y i o' : ℝ))
          (Function.update (fun o' k => (s.params.weight o' k : ℝ)) o
            (Function.update (fun k => (s.params.weight o k : ℝ)) j t))
          (fun o' => (s.params.bias o' : ℝ)))
        (((backwardMSE X y (zeroGrad s)).gradWeight o j : ℚ) : ℝ)
        ((s.params.weight o j : ℝ)))
    ∧ (∀ o : Fin 1, HasDerivAt
        (fun t : ℝ => lossPoly (fun i k => (X i k : ℝ)) (fun i o' => (y i o' : ℝ))
          (fun o' k => (s.params.weight o' k : ℝ))
          (Function.update (fun o' => (s.params.bias o' : ℝ)) o t))
        (((backwardMSE X y (zeroGrad s)).gradBias o : ℚ) : ℝ)
        ((s.params.bias o : ℝ)))
    ∧ (∀ (o : Fin 1) (j : Fin 2), (trainStep trainerLR X y s).params.weight o j
        = s.params.weight o j - trainerLR * (backwardMSE X y (zeroGrad s)).gradWeight o j)
    ∧ (∀ o : Fin 1, (trainStep trainerLR X y s).params.bias o
        = s.params.bias o - trainerLR * (backwardMSE X y (zeroGrad s)).gradBias o) := by
  refine ⟨rfl, rfl, rfl, ?_, ?_, fun o j => rfl, fun o => rfl⟩
  · intro o j
    have h := hasDerivAt_lossPoly_weight (fun i k => ((X i k : ℚ) : ℝ))
      (fun i o' => (y i o' : ℝ)) (fun o' k => (s.params.weight o' k : ℝ))
      (fun o' => (s.params.bias o' : ℝ)) o j
    have hval : (((backwardMSE X y (zeroGrad s)).gradWeight o j : ℚ) : ℝ)
        = ∑ i, 2 * ((∑ k, ((X i k : ℚ) : ℝ) * (s.params.weight o k : ℝ))
            + (s.params.bias o : ℝ) - (y i o : ℝ)) * ((X i j : ℚ) : ℝ) := by
      simp only [backwardMSE, zeroGrad, LinearRegressionModel.forward, linearForward, zero_add]
      push_cast
      exact Finset.sum_congr rfl fun i _ => by ring
    rw [hval]
    exact h
  · intro o
    have h := hasDerivAt_lossPoly_bias (fun i k => ((X i k : ℚ) : ℝ))
      (fun i o' => (y i o' : ℝ)) (fun o' k => (s.params.weight o' k : ℝ))
      (fun o' => (s.params.bias o' : ℝ)) o
    have hval : (((backwardMSE X y (zeroGrad s)).gradBias o : ℚ) : ℝ)
        = ∑ i, 2 * ((∑ k, ((X i k : ℚ) : ℝ) * (s.params.weight o k : ℝ))
            + (s.params.bias o : ℝ) - (y i o : ℝ)) := by
      simp only [backwardMSE, zeroGrad, LinearRegressionModel.forward, linearForward, zero_add]
      push_cast
      exact Finset.sum_congr rfl fun i _ => by ring
    rw [hval]
    exact h

/-- C5: the training loop makes exactly `num_epochs = 3` complete passes
over the data iterator, and after each pass (and only then) evaluates the
loss of the current model on the full `features`/`labels` and prints one
line per epoch, labelled epoch 1 through epoch 3 in increasing order. -/
theorem c5_training_loop_three_epochs (lr : ℚ) (batches : List Batch) {n : Nat}
    (features : Fin n → Fin 2 → ℚ) (labels : Fin n → Fin 1 → ℚ) (s0 : OptimState) :
    trainLoop lr batches features labels num_epochs s0 =
      ((runEpoch lr batches)^[3] s0,
        ["epoch " ++ toString (1 : Nat) ++ ", loss " ++ toString
            (mseLossSum ((((runEpoch lr batches)^[1] s0).params).forward features) labels),
         "epoch " ++ toString (2 : Nat) ++ ", loss " ++ toString
            (mseLossSum ((((runEpoch lr batches)^[2] s0).params).forward features) labels),
         "epoch " ++ toString (3 : Nat) ++ ", loss " ++ toString
            (mseLossSum ((((runEpoch lr batches)^[3] s0).params).forward features) labels)]) :=
  rfl

/-- C6: both constructed models are single affine maps:
`LinearRegressionModel.forward` is exactly its sole `Linear(2, 1)` layer
`x Wᵀ + b`, and the softmax network is exactly the `(-1, 784)` reshape
followed by one `Linear(784, 10)` layer, with no other computation. -/
theorem c6_models_are_single_affine_maps :
    (∀ (p : LinearRegressionModel) (m : Nat) (x : Fin m → Fin 2 → ℚ),
      p.forward x = fun i o => (∑ j, x i j * p.weight o j) + p.bias o)
    ∧ ∀ (W : Fin 10 → Fin 784 → ℚ) (b : Fin 10 → ℚ) (x : Tensor) (n : Nat),
        x.rows * x.cols = n * 784 →
        softmaxNet W b x = some ⟨n, 10, fun i o =>
          (∑ j : Fin 784, x.flatten (i.1 * 784 + j.1) * W o j) + b o⟩ := by
  refine ⟨fun p m x => rfl, ?_⟩
  intro W b x n h
  have h0 : (0 : Nat) < 784 ∧ (x.rows * x.cols) % 784 = 0 := by omega
  unfold softmaxNet Reshape.forward Tensor.view2
  rw [dif_pos h0]
  show linearApply W b _ = _
  unfold linearApply
  rw [dif_pos rfl]
  refine congrArg some (Tensor.ext_of_shape _ _ (show x.rows * x.cols / 784 = n by omega) rfl ?_)
  intro i o
  simp [Fin.cast]

/-- Witness for C6: the zero `(1, 784)` input through the zero-parameter
softmax network. -/
theorem c6_models_are_single_affine_maps_witness :
    softmaxNet (fun _ _ => 0) (fun _ => 0) ⟨1, 784, fun _ _ => 0⟩ =
      some ⟨1, 10, fun i o =>
        (∑ j : Fin 784, Tensor.flatten ⟨1, 784, fun _ _ => 0⟩ (i.1 * 784 + j.1)
          * (fun _ _ => (0 : ℚ)) o j) + (fun _ => (0 : ℚ)) o⟩ :=
  c6_models_are_single_affine_maps.2 (fun _ _ => 0) (fun _ => 0)
    ⟨1, 784, fun _ _ => 0⟩ 1 rfl

/-- C10: with the leaf `x = (0, 1, 2, 3)ᵀ`, computing `y = 2 xᵀx` and
calling `y.backward()` stores `x.grad = 4x = (0, 4, 8, 12)ᵀ` — the
reverse-mode value equals the true gradient of `yQuadForm` — so
`(x.grad - 4x).norm() = 0`; and the leaf `x` has `grad_fn = None`. -/
theorem c10_simple_autodiff_gradient :
    (∀ (x : Fin 4 → ℝ) (i : Fin 4),
      HasDerivAt (fun t => yQuadForm (Function.update x i t)) (4 * x i) (x i))
    ∧ (∀ x : Fin 4 → ℚ, backwardQuadForm x = fun i => 4 * x i)
    ∧ backwardQuadForm xInit = ![0, 4, 8, 12]
    ∧ (∑ i, (backwardQuadForm xInit i - 4 * xInit i) ^ 2) = 0
    ∧ xVar.gradFn = none := by
  refine ⟨?_, ?_, ?_, ?_, rfl⟩
  · intro x i
    have hk : ∀ k : Fin 4, k ∈ Finset.univ → HasDerivAt
        (fun t => Function.update x i t k * Function.update x i t k)
        (if k = i then 2 * x i else 0) (x i) := by
      intro k _
      by_cases hki : k = i
      · subst hki
        simp only [if_pos rfl]
        have he : (fun t => Function.update x k t k * Function.update x k t k)
            = fun t : ℝ => t * t := by
          funext t
          rw [Function.update_same]
        rw [he]
        simpa [two_mul] using (hasDerivAt_id (x k)).mul (hasDerivAt_id (x k))
      · simp only [if_neg hki]
        have he : (fun t => Function.update x i t k * Function.update x i t k)
            = fun _ => x k * x k := by
          funext t
          rw [Function.update_noteq hki]
        rw [he]
        exact hasDerivAt_const _ _
    have hs := HasDerivAt.sum hk
    simp only [Finset.sum_ite_eq', Finset.mem_univ, if_pos] at hs
    have h2 := hs.const_mul (2 : ℝ)
    have hv : (2 : ℝ) * (2 * x i) = 4 * x i := by ring
    rw [hv] at h2
    simpa [yQuadForm] using h2
  · intro x
    funext i
    show 2 * (x i + x i) = 4 * x i
    ring
  · funext i
    fin_cases i <;> norm_num [backwardQuadForm, xInit]
  · refine Finset.sum_eq_zero ?_
    intro i _
    show (2 * (xInit i + xInit i) - 4 * xInit i) ^ 2 = 0
    ring

end D2L
